import Mathlib

/-!
Verification of the alignment-crunching core of `pbreports`
(`pbreports/io/align.py`): the record-crunching engine
`alignment_info_from_bam`, the movie-indexed table builder
`CrunchedAlignments._numpify`, and the percentile utility `_getPct`.

Python dictionaries are modelled as association lists with
update-in-place semantics (`upsert`); Python sets of strings as lists
with add-if-absent (`insertS`); floats as rationals; machine ints as
`Int`; exceptions as `Except` / `Option`.
-/

set_option autoImplicit false

namespace Align

/-- `(movie name, hole number)`: identifies one physical read. -/
abbrev ZmwId := String × Int

/-- `(movie name, hole number, effective query start, effective query end)`. -/
abbrev SubreadId := String × Int × Int × Int

/-- One record of the indexed BAM reader: the fields of index `i_aln`
read by `alignment_info_from_bam` (movie name resolved from `qId`,
`holeNumber`, `qStart`/`qEnd`, `aStart`/`aEnd`, cached `identity`,
`readQual`). -/
structure AlignmentRecord where
  movieName : String
  holeNumber : Int
  qStart : Int
  qEnd : Int
  aStart : Int
  aEnd : Int
  identity : ℚ
  readQual : ℚ
  deriving DecidableEq

/-- Association-list lookup: the value stored under key `k`, if any. -/
def lookupA {κ α : Type} [DecidableEq κ] : List (κ × α) → κ → Option α
  | [], _ => none
  | kv :: rest, k => if kv.1 = k then some kv.2 else lookupA rest k

/-- Python `d[k] = v` on a dict: replace the value in place when the key
is present, otherwise add the pair at the end. -/
def upsert {κ α : Type} [DecidableEq κ] (m : List (κ × α)) (k : κ) (v : α) :
    List (κ × α) :=
  if (lookupA m k).isSome then
    m.map (fun kv => if kv.1 = k then (k, v) else kv)
  else m ++ [(k, v)]

/-- Python `s.add(x)` on a set of strings. -/
def insertS (l : List String) (x : String) : List String :=
  if x ∈ l then l else l ++ [x]

/-- `zmw_id = (current_movie_name, hole_number)`. -/
def zmwOf (r : AlignmentRecord) : ZmwId := (r.movieName, r.holeNumber)

/-- The `(qs, qe)` pair after the unclipped-sentinel fallback:
`if (qs, qe) == (-1, -1): qs = 0; qe = rend - rstart`. -/
def effQuery (r : AlignmentRecord) : Int × Int :=
  if r.qStart = -1 ∧ r.qEnd = -1 then (0, r.aEnd - r.aStart)
  else (r.qStart, r.qEnd)

/-- `subread_id = (current_movie_name, hole_number, qs, qe)`. -/
def sidOf (r : AlignmentRecord) : SubreadId :=
  (r.movieName, r.holeNumber, (effQuery r).1, (effQuery r).2)

/-- `subread_length = rend - rstart`. -/
def subreadLength (r : AlignmentRecord) : Int := r.aEnd - r.aStart

/-- The list `this_a` built for one matching record:
`[subread_length, identity, readQual, isFirst, 99999]`, where
`isFirst` is `1.0 if zmw_id != last_zmw_id else 0.0`. -/
def rowOf (lastZmw : Option ZmwId) (r : AlignmentRecord) : List ℚ :=
  [((subreadLength r : Int) : ℚ), r.identity, r.readQual,
   if lastZmw = some (zmwOf r) then 0 else 1, 99999]

/-- The mutable state of the loop in `alignment_info_from_bam`.
`trace` is instrumentation only: the history of assignments
`datum[subread_id] = tuple(this_a)` in stream order; no other field
depends on it. `dup_warnings` counts calls to `warnings.warn`. -/
structure CrunchState where
  datum : List (SubreadId × List ℚ)
  unrolled : List (ZmwId × (Int × Int))
  max_subread : List (ZmwId × (SubreadId × Int))
  movie_names : List String
  last_zmw_id : Option ZmwId
  dup_warnings : Nat
  trace : List (SubreadId × List ℚ)

def initState : CrunchState :=
  { datum := [], unrolled := [], max_subread := [], movie_names := []
    last_zmw_id := none, dup_warnings := 0, trace := [] }

/-- One iteration of the loop body of `alignment_info_from_bam` for the
record `r`: record the movie name; skip non-matching records; otherwise
store the subread row (overwriting, warning on a duplicate key), update
the longest-subread index (strict `>`), and widen the unrolled span
from the `setdefault` value `[99999, 0]`. -/
def crunchStep (movie_name : String) (st : CrunchState) (r : AlignmentRecord) :
    CrunchState :=
  let st1 := { st with movie_names := insertS st.movie_names r.movieName }
  if movie_name ≠ r.movieName then st1
  else
    let z := zmwOf r
    let sid := sidOf r
    let len := subreadLength r
    let row := rowOf st.last_zmw_id r
    let prev := (lookupA st.unrolled z).getD (99999, 0)
    { st1 with
      datum := upsert st.datum sid row
      dup_warnings :=
        st.dup_warnings + (if (lookupA st.datum sid).isSome then 1 else 0)
      trace := st.trace ++ [(sid, row)]
      last_zmw_id := some z
      max_subread :=
        match lookupA st.max_subread z with
        | none => upsert st.max_subread z (sid, len)
        | some p =>
            if len > p.2 then upsert st.max_subread z (sid, len)
            else st.max_subread
      unrolled := upsert st.unrolled z (min prev.1 r.aStart, max prev.2 r.aEnd) }

/-- The whole loop of `alignment_info_from_bam` over the stream of
records, started from the empty state (`last_zmw_id = None`). -/
def crunch (records : List AlignmentRecord) (movie_name : String) : CrunchState :=
  records.foldl (crunchStep movie_name) initState

/-- `alignment_info_from_bam` returns
`(datum, unrolled, max_subread, movie_names)`. -/
def alignment_info_from_bam (records : List AlignmentRecord) (movie_name : String) :
    List (SubreadId × List ℚ) × List (ZmwId × (Int × Int)) ×
      List (ZmwId × (SubreadId × Int)) × List String :=
  let st := crunch records movie_name
  (st.datum, st.unrolled, st.max_subread, st.movie_names)

/-- The fixed column schema of `from_alignment_file`. -/
def columns : List String :=
  ["Length", "Accuracy", "Read quality", "isFirst", "modStart"]

/-- `from_alignment_file` returns `(movie_names, unrolled, datum, columns)`. -/
def from_alignment_file (movie_name : String) (records : List AlignmentRecord) :
    List String × List (ZmwId × (Int × Int)) ×
      List (SubreadId × List ℚ) × List String :=
  let out := alignment_info_from_bam records movie_name
  (out.2.2.2, out.2.1, out.1, columns)

/-- The records of the stream whose movie matches the target movie. -/
def msOf (records : List AlignmentRecord) (movie : String) :
    List AlignmentRecord :=
  records.filter (fun r => decide (r.movieName = movie))

/-- The matching records carrying a given `ZmwId`. -/
def matchingFor (records : List AlignmentRecord) (movie : String) (z : ZmwId) :
    List AlignmentRecord :=
  records.filter (fun r => decide (r.movieName = movie ∧ zmwOf r = z))

/-- The per-movie index object of `align.py` (`name`, read offset/length,
subread offset/length). -/
structure MovieIdx where
  name : String
  rOffs : Nat
  rLen : Nat
  sOffs : Nat
  sLen : Nat
  deriving DecidableEq

/-- The data computed by a successful `CrunchedAlignments._numpify`:
the movie index list, the read-length array and the subread-row array. -/
structure CrunchedAlignments where
  movies : List MovieIdx
  nReads : List Int
  nSubreads : List (List ℚ)
  deriving DecidableEq

/-- The two ways `_numpify` can raise: the uncaught `sl[0]` index error
on an empty subread list, and the explicit schema-mismatch
`IndexError(msg)`. -/
inductive BuildError where
  | indexOutOfRange
  | schemaMismatch (slWidth : Nat) (colWidth : Nat)
  deriving DecidableEq

/-- The `for name in self._movieNames` loop of `_numpify`: per movie,
the filtered read span lengths `v[1] - v[0]` and the filtered subread
rows, together with the running offsets recorded into each `MovieIdx`. -/
def numpifyLoop (reads : List (ZmwId × (Int × Int)))
    (subreads : List (SubreadId × List ℚ)) :
    List String → Nat → Nat → List MovieIdx × List Int × List (List ℚ)
  | [], _, _ => ([], [], [])
  | name :: rest, rOffs, sOffs =>
    let rvs := (reads.filter (fun kv => decide (kv.1.1 = name))).map
      (fun kv => kv.2.2 - kv.2.1)
    let svs := (subreads.filter (fun kv => decide (kv.1.1 = name))).map Prod.snd
    let out := numpifyLoop reads subreads rest (rOffs + rvs.length)
      (sOffs + svs.length)
    (⟨name, rOffs, rvs.length, sOffs, svs.length⟩ :: out.1,
     rvs ++ out.2.1, svs ++ out.2.2)

/-- `CrunchedAlignments._numpify`: run the per-movie loop, then check
`len(sl[0]) != len(self._cols)`. On an empty `sl` the indexing `sl[0]`
itself raises; on a width mismatch the explicit `IndexError` is raised;
otherwise the arrays are built. -/
def _numpify (mnames : List String) (reads : List (ZmwId × (Int × Int)))
    (subreads : List (SubreadId × List ℚ)) (cols : List String) :
    Except BuildError CrunchedAlignments :=
  let out := numpifyLoop reads subreads mnames 0 0
  match out.2.2 with
  | [] => .error .indexOutOfRange
  | row :: _ =>
      if row.length ≠ cols.length then
        .error (.schemaMismatch row.length cols.length)
      else .ok ⟨out.1, out.2.1, out.2.2⟩

/-- `_getPct`: sort ascending, compute `index = ceil(p/100 * N)` and
return `sorted[-1]` when `index >= N`, else `sorted[index]` with
Python's indexing conventions (negative indices wrap once; out of
range is an `IndexError`, modelled as `none`). -/
def _getPct (percentile : ℚ) (vector : List ℚ) : Option ℚ :=
  let sorted_vector := List.insertionSort (· ≤ ·) vector
  let index : ℤ := ⌈percentile / 100 * (sorted_vector.length : ℚ)⌉
  if (sorted_vector.length : ℤ) ≤ index then sorted_vector.getLast?
  else if 0 ≤ index then sorted_vector.get? index.toNat
  else if 0 ≤ (sorted_vector.length : ℤ) + index then
    sorted_vector.get? ((sorted_vector.length : ℤ) + index).toNat
  else none

/-- The update applied by one matching record to the stored span of its
`ZmwId`: `setdefault([99999, 0])` followed by the `min`/`max` writes. -/
def spanStep (p : Option (Int × Int)) (r : AlignmentRecord) :
    Option (Int × Int) :=
  let q := p.getD (99999, 0)
  some (min q.1 r.aStart, max q.2 r.aEnd)

/-- The update applied by one matching record to the stored
longest-subread entry of its `ZmwId`
(`if zmw_id not in max_subread or subread_length > max_subread[zmw_id][1]`). -/
def maxStep (p : Option (SubreadId × Int)) (r : AlignmentRecord) :
    Option (SubreadId × Int) :=
  match p with
  | none => some (sidOf r, subreadLength r)
  | some q =>
      if subreadLength r > q.2 then some (sidOf r, subreadLength r) else some q

/-- Specification-side selection of the pair with the greatest length,
keeping the earliest element on ties. -/
def firstMax : List (SubreadId × Int) → Option (SubreadId × Int)
  | [] => none
  | x :: xs =>
      match firstMax xs with
      | none => some x
      | some y => if y.2 > x.2 then some y else some x

/-- The sequence of `(subread_id, this_a)` assignments performed for a
run of matching records, starting from a given `last_zmw_id`. -/
def mkTrace (lz : Option ZmwId) : List AlignmentRecord → List (SubreadId × List ℚ)
  | [] => []
  | r :: rs => (sidOf r, rowOf lz r) :: mkTrace (some (zmwOf r)) rs

/-- Number of assignments that overwrote an already-present key: an
entry counts when its key is among `seen` or appeared earlier in the
list. -/
def overwriteCount : List SubreadId → List (SubreadId × List ℚ) → Nat
  | _, [] => 0
  | seen, p :: rest =>
      (if p.1 ∈ seen then 1 else 0) + overwriteCount (p.1 :: seen) rest

/-- Number of read-span entries of one movie. -/
def rCount (reads : List (ZmwId × (Int × Int))) (n : String) : Nat :=
  (reads.filter (fun kv => decide (kv.1.1 = n))).length

/-- Number of subread entries of one movie. -/
def sCount (subreads : List (SubreadId × List ℚ)) (n : String) : Nat :=
  (subreads.filter (fun kv => decide (kv.1.1 = n))).length

/-! ### Association-list and set-model lemmas -/

theorem lookupA_nil {κ α : Type} [DecidableEq κ] (k : κ) :
    lookupA ([] : List (κ × α)) k = none := rfl

theorem lookupA_cons {κ α : Type} [DecidableEq κ] (kv : κ × α)
    (rest : List (κ × α)) (k : κ) :
    lookupA (kv :: rest) k
      = if kv.1 = k then some kv.2 else lookupA rest k := rfl

theorem lookupA_map_self {κ α : Type} [DecidableEq κ] (m : List (κ × α))
    (k : κ) (v : α) (h : (lookupA m k).isSome = true) :
    lookupA (m.map (fun kv => if kv.1 = k then (k, v) else kv)) k = some v := by
  induction m with
  | nil => simp [lookupA_nil] at h
  | cons kv rest ih =>
    by_cases hk : kv.1 = k
    · simp [List.map_cons, if_pos hk, lookupA_cons]
    · rw [lookupA_cons, if_neg hk] at h
      rw [List.map_cons, if_neg hk, lookupA_cons, if_neg hk]
      exact ih h

theorem lookupA_append_of_none {κ α : Type} [DecidableEq κ]
    (m l : List (κ × α)) (k : κ) (h : lookupA m k = none) :
    lookupA (m ++ l) k = lookupA l k := by
  induction m with
  | nil => simp
  | cons kv rest ih =>
    by_cases hk : kv.1 = k
    · rw [lookupA_cons, if_pos hk] at h
      exact absurd h (by simp)
    · rw [lookupA_cons, if_neg hk] at h
      rw [List.cons_append, lookupA_cons, if_neg hk]
      exact ih h

theorem lookupA_upsert_self {κ α : Type} [DecidableEq κ] (m : List (κ × α))
    (k : κ) (v : α) : lookupA (upsert m k v) k = some v := by
  by_cases h : (lookupA m k).isSome = true
  · simp only [upsert, h, if_true]
    exact lookupA_map_self m k v h
  · have hn : lookupA m k = none := by
      cases hval : lookupA m k
      · rfl
      · rw [hval] at h; simp at h
    simp only [upsert, hn, Option.isSome_none, Bool.false_eq_true, if_false]
    rw [lookupA_append_of_none m _ k hn, lookupA_cons, if_pos rfl]

theorem lookupA_map_ne {κ α : Type} [DecidableEq κ] (m : List (κ × α))
    (k j : κ) (v : α) (hne : j ≠ k) :
    lookupA (m.map (fun kv => if kv.1 = k then (k, v) else kv)) j
      = lookupA m j := by
  induction m with
  | nil => rfl
  | cons kv rest ih =>
    by_cases hk : kv.1 = k
    · have h1 : ¬(k = j) := fun h => hne h.symm
      have h2 : ¬(kv.1 = j) := by rw [hk]; exact h1
      rw [List.map_cons, if_pos hk, lookupA_cons, lookupA_cons,
        if_neg h1, if_neg h2]
      exact ih
    · rw [List.map_cons, if_neg hk, lookupA_cons, lookupA_cons]
      by_cases h2 : kv.1 = j
      · rw [if_pos h2, if_pos h2]
      · rw [if_neg h2, if_neg h2]
        exact ih

theorem lookupA_append_single_ne {κ α : Type} [DecidableEq κ]
    (m : List (κ × α)) (k j : κ) (v : α) (hne : j ≠ k) :
    lookupA (m ++ [(k, v)]) j = lookupA m j := by
  induction m with
  | nil =>
    have h1 : ¬(k = j) := fun h => hne h.symm
    simp [lookupA_cons, lookupA_nil, h1]
  | cons kv rest ih =>
    rw [List.cons_append, lookupA_cons, lookupA_cons]
    by_cases h2 : kv.1 = j
    · rw [if_pos h2, if_pos h2]
    · rw [if_neg h2, if_neg h2]
      exact ih

theorem lookupA_upsert_ne {κ α : Type} [DecidableEq κ] (m : List (κ × α))
    (k j : κ) (v : α) (hne : j ≠ k) :
    lookupA (upsert m k v) j = lookupA m j := by
  unfold upsert
  split
  · exact lookupA_map_ne m k j v hne
  · exact lookupA_append_single_ne m k j v hne

theorem lookupA_upsert_isSome {κ α : Type} [DecidableEq κ] (m : List (κ × α))
    (k j : κ) (v : α) :
    (lookupA (upsert m k v) j).isSome = true
      ↔ j = k ∨ (lookupA m j).isSome = true := by
  by_cases hj : j = k
  · subst hj
    simp [lookupA_upsert_self]
  · rw [lookupA_upsert_ne m k j v hj]
    simp [hj]

theorem mem_upsert {κ α : Type} [DecidableEq κ] {m : List (κ × α)}
    {k : κ} {v : α} {q : κ × α} (h : q ∈ upsert m k v) :
    q ∈ m ∨ q = (k, v) := by
  unfold upsert at h
  split at h
  · rcases List.mem_map.mp h with ⟨kv, hkv, heq⟩
    by_cases hk : kv.1 = k
    · right
      rw [if_pos hk] at heq
      exact heq.symm
    · left
      rw [if_neg hk] at heq
      exact heq ▸ hkv
  · rcases List.mem_append.mp h with h1 | h1
    · exact Or.inl h1
    · exact Or.inr (by simpa using h1)

theorem mem_insertS_self (l : List String) (x : String) : x ∈ insertS l x := by
  by_cases h : x ∈ l <;> simp [insertS, h]

theorem mem_insertS_mono {l : List String} {y : String} (x : String)
    (h : y ∈ l) : y ∈ insertS l x := by
  by_cases hx : x ∈ l <;> simp [insertS, hx, h]

/-! ### Folded min/max lemmas -/

theorem foldl_min_le {β : Type} (f : β → Int) :
    ∀ (l : List β) (a : Int), l.foldl (fun x r => min x (f r)) a ≤ a := by
  intro l
  induction l with
  | nil => intro a; simp
  | cons r t ih =>
    intro a
    calc (r :: t).foldl (fun x r => min x (f r)) a
        = t.foldl (fun x r => min x (f r)) (min a (f r)) := rfl
      _ ≤ min a (f r) := ih _
      _ ≤ a := min_le_left _ _

theorem foldl_min_comm {β : Type} (f : β → Int) :
    ∀ (l : List β) (a b : Int),
      l.foldl (fun x r => min x (f r)) (min a b)
        = min a (l.foldl (fun x r => min x (f r)) b) := by
  intro l
  induction l with
  | nil => intro a b; simp
  | cons r t ih =>
    intro a b
    show t.foldl _ (min (min a b) (f r)) = min a (t.foldl _ (min b (f r)))
    rw [min_assoc, ih]

theorem le_foldl_max {β : Type} (f : β → Int) :
    ∀ (l : List β) (a : Int), a ≤ l.foldl (fun x r => max x (f r)) a := by
  intro l
  induction l with
  | nil => intro a; simp
  | cons r t ih =>
    intro a
    calc a ≤ max a (f r) := le_max_left _ _
      _ ≤ t.foldl (fun x r => max x (f r)) (max a (f r)) := ih _
      _ = (r :: t).foldl (fun x r => max x (f r)) a := rfl

theorem foldl_max_comm {β : Type} (f : β → Int) :
    ∀ (l : List β) (a b : Int),
      l.foldl (fun x r => max x (f r)) (max a b)
        = max a (l.foldl (fun x r => max x (f r)) b) := by
  intro l
  induction l with
  | nil => intro a b; simp
  | cons r t ih =>
    intro a b
    show t.foldl _ (max (max a b) (f r)) = max a (t.foldl _ (max b (f r)))
    rw [max_assoc, ih]

/-! ### Claim C1: empty selection -/

/-- C1: the claim says that building a `CrunchedAlignments` table from an
empty movie-name collection and empty read-span and subread mappings
yields a table with empty arrays and an empty movie-index list without
raising. The code instead evaluates `len(sl[0])` on the empty subread
list and raises an uncaught `IndexError`: no table is produced. -/
theorem c1_empty_selection_raises :
    _numpify [] [] [] columns = Except.error BuildError.indexOutOfRange := rfl

/-! ### Claim C6: schema mismatch -/

/-- C6: if at least one subread row is appended and the width of the
first appended row differs from the length of the column-name list,
`_numpify` aborts with the structural `IndexError` and produces no
table. -/
theorem c6_schema_mismatch (mnames : List String)
    (reads : List (ZmwId × (Int × Int))) (subreads : List (SubreadId × List ℚ))
    (cols : List String) (row : List ℚ) (rest : List (List ℚ))
    (hsl : (numpifyLoop reads subreads mnames 0 0).2.2 = row :: rest)
    (hw : row.length ≠ cols.length) :
    _numpify mnames reads subreads cols
      = Except.error (BuildError.schemaMismatch row.length cols.length) := by
  simp only [_numpify]
  rw [hsl]
  simp [hw]

/-- Witness for C6: five column names but a single row of width 4. -/
theorem c6_schema_mismatch_witness :
    (numpifyLoop [] [(("m", 1, 0, 4), ([1, 2, 3, 4] : List ℚ))] ["m"] 0 0).2.2
        = [1, 2, 3, 4] :: []
      ∧ ([(1 : ℚ), 2, 3, 4]).length ≠ columns.length
      ∧ _numpify ["m"] [] [(("m", 1, 0, 4), [1, 2, 3, 4])] columns
          = Except.error
              (BuildError.schemaMismatch ([(1 : ℚ), 2, 3, 4]).length columns.length) :=
  ⟨rfl, by decide,
    c6_schema_mismatch ["m"] [] [(("m", 1, 0, 4), [1, 2, 3, 4])] columns
      [1, 2, 3, 4] [] rfl (by decide)⟩

/-! ### Claim C3: percentile utility -/

/-- C3: `_getPct` sorts its input ascending and returns the element at
index `⌈p/100 · N⌉`, clamped to the last element when that index
reaches or exceeds `N` (for a non-empty input and non-negative `p`);
in particular `_getPct 50 [1,2,3,4] = 3` and
`_getPct 100 [1,2,3,4] = 4`. -/
theorem c3_percentile :
    (∀ (p : ℚ) (v : List ℚ), v ≠ [] → 0 ≤ p →
      _getPct p v = some ((List.insertionSort (· ≤ ·) v).getD
        (min (⌈p / 100 * (v.length : ℚ)⌉).toNat (v.length - 1)) 0))
    ∧ _getPct 50 [1, 2, 3, 4] = some 3
    ∧ _getPct 100 [1, 2, 3, 4] = some 4 := by
  refine ⟨?_, ?_, ?_⟩
  · intro p v hv hp
    have hlen : (List.insertionSort (· ≤ ·) v).length = v.length :=
      List.length_insertionSort _ v
    have hpos : 0 < v.length := List.length_pos.mpr hv
    have hidx : (0 : ℤ) ≤ ⌈p / 100 * (v.length : ℚ)⌉ := by
      apply Int.ceil_nonneg
      have h100 : (0 : ℚ) ≤ p / 100 := by positivity
      exact mul_nonneg h100 (by positivity)
    simp only [_getPct]
    rw [hlen]
    by_cases hge : ((v.length : ℤ) ≤ ⌈p / 100 * (v.length : ℚ)⌉)
    · rw [if_pos hge]
      have htn : v.length ≤ (⌈p / 100 * (v.length : ℚ)⌉).toNat := by omega
      have hmin : min (⌈p / 100 * (v.length : ℚ)⌉).toNat (v.length - 1)
          = v.length - 1 := by omega
      rw [hmin, List.getLast?_eq_getElem?, hlen,
        List.getElem?_eq_getElem (by omega), List.getD_eq_getElem?_getD,
        List.getElem?_eq_getElem (by omega)]
      rfl
    · rw [if_neg hge, if_pos hidx]
      have hlt : (⌈p / 100 * (v.length : ℚ)⌉).toNat < v.length := by omega
      have hmin : min (⌈p / 100 * (v.length : ℚ)⌉).toNat (v.length - 1)
          = (⌈p / 100 * (v.length : ℚ)⌉).toNat := by omega
      rw [hmin, List.get?_eq_getElem?, List.getElem?_eq_getElem (by omega),
        List.getD_eq_getElem?_getD, List.getElem?_eq_getElem (by omega)]
      rfl
  · norm_num [_getPct, List.insertionSort, List.orderedInsert]
    decide
  · norm_num [_getPct, List.insertionSort, List.orderedInsert]

/-! ### Stepping lemmas for the crunching loop -/

theorem crunchStep_skip (movie : String) (st : CrunchState)
    (r : AlignmentRecord) (hm : movie ≠ r.movieName) :
    crunchStep movie st r
      = { st with movie_names := insertS st.movie_names r.movieName } := by
  simp [crunchStep, hm]

theorem unrolled_crunchStep_match (movie : String) (st : CrunchState)
    (r : AlignmentRecord) (hm : movie = r.movieName) :
    (crunchStep movie st r).unrolled
      = upsert st.unrolled (zmwOf r)
          (min ((lookupA st.unrolled (zmwOf r)).getD (99999, 0)).1 r.aStart,
           max ((lookupA st.unrolled (zmwOf r)).getD (99999, 0)).2 r.aEnd) := by
  simp [crunchStep, hm]

theorem lookup_unrolled_foldl (movie : String) :
    ∀ (records : List AlignmentRecord) (st : CrunchState) (z : ZmwId),
      lookupA ((records.foldl (crunchStep movie) st).unrolled) z
        = (matchingFor records movie z).foldl spanStep
            (lookupA st.unrolled z) := by
  intro records
  induction records with
  | nil => intro st z; rfl
  | cons r rest ih =>
    intro st z
    rw [List.foldl_cons, ih]
    by_cases hm : movie = r.movieName
    · by_cases hz : zmwOf r = z
      · have hf : matchingFor (r :: rest) movie z
            = r :: matchingFor rest movie z := by
          simp [matchingFor, List.filter_cons, hm.symm, hz]
        rw [hf, List.foldl_cons]
        congr 1
        rw [unrolled_crunchStep_match movie st r hm, hz, lookupA_upsert_self]
        rfl
      · have hpred : ¬(r.movieName = movie ∧ zmwOf r = z) := fun h => hz h.2
        have hf : matchingFor (r :: rest) movie z
            = matchingFor rest movie z := by
          simp [matchingFor, List.filter_cons, hpred]
        rw [hf]
        congr 1
        rw [unrolled_crunchStep_match movie st r hm]
        exact lookupA_upsert_ne _ _ _ _ (fun h => hz h.symm)
    · have hpred : ¬(r.movieName = movie ∧ zmwOf r = z) := fun h => hm h.1.symm
      have hf : matchingFor (r :: rest) movie z
          = matchingFor rest movie z := by
        simp [matchingFor, List.filter_cons, hpred]
      rw [hf]
      congr 1
      rw [crunchStep_skip movie st r hm]

theorem spanStep_foldl_some :
    ∀ (g : List AlignmentRecord) (a b : Int),
      g.foldl spanStep (some (a, b))
        = some (g.foldl (fun x r => min x r.aStart) a,
                g.foldl (fun x r => max x r.aEnd) b) := by
  intro g
  induction g with
  | nil => intro a b; rfl
  | cons r t ih =>
    intro a b
    show t.foldl spanStep (some (min a r.aStart, max b r.aEnd))
      = some ((r :: t).foldl (fun x r => min x r.aStart) a,
              (r :: t).foldl (fun x r => max x r.aEnd) b)
    exact ih _ _

/-- Witness for C3: the general clause applied at `p = 50`,
`v = [1,2,3,4]`. -/
theorem c3_percentile_witness :
    ([(1 : ℚ), 2, 3, 4] ≠ [] ∧ (0 : ℚ) ≤ 50)
      ∧ _getPct 50 [1, 2, 3, 4]
          = some ((List.insertionSort (· ≤ ·) [(1 : ℚ), 2, 3, 4]).getD
              (min (⌈(50 : ℚ) / 100 * (([(1 : ℚ), 2, 3, 4]).length : ℚ)⌉).toNat
                (([(1 : ℚ), 2, 3, 4]).length - 1)) 0) :=
  ⟨⟨by decide, by norm_num⟩,
    c3_percentile.1 50 [1, 2, 3, 4] (by decide) (by norm_num)⟩

/-! ### Claim C2: read spans -/

/-- C2 counterexample: the claim says the stored pair for a `ZmwId` is
`(minimum reference start, maximum reference end)` over the matching
records for arbitrary non-negative reference coordinates. For a single
matching record with `aStart = 100000 > 99999` the stored pair is
`(99999, 100010)`, not `(100000, 100010)`: the `setdefault` sentinel
`[99999, 0]` caps the stored minimum. -/
theorem c2_counterexample :
    matchingFor [(⟨"m", 7, 0, 10, 100000, 100010, 0, 0⟩ : AlignmentRecord)]
        "m" ("m", 7)
      = [(⟨"m", 7, 0, 10, 100000, 100010, 0, 0⟩ : AlignmentRecord)]
    ∧ lookupA
        (crunch [(⟨"m", 7, 0, 10, 100000, 100010, 0, 0⟩ : AlignmentRecord)]
          "m").unrolled ("m", 7) = some (99999, 100010)
    ∧ lookupA
        (crunch [(⟨"m", 7, 0, 10, 100000, 100010, 0, 0⟩ : AlignmentRecord)]
          "m").unrolled ("m", 7) ≠ some (100000, 100010) := by
  refine ⟨rfl, by decide, by decide⟩

/-- C2 amended: for every `ZmwId` with at least one matching record and
non-negative reference ends, the stored pair equals
`(min 99999 (minimum reference start), maximum reference end)`: the
union span of the read on the reference, except that the start
component is capped by the `99999` sentinel used to seed the update. -/
theorem c2_read_span_amended (records : List AlignmentRecord) (movie : String)
    (z : ZmwId) (r0 : AlignmentRecord) (g : List AlignmentRecord)
    (hg : matchingFor records movie z = r0 :: g)
    (hnn : ∀ x ∈ matchingFor records movie z, 0 ≤ x.aEnd) :
    lookupA (crunch records movie).unrolled z
      = some (min 99999 (g.foldl (fun a x => min a x.aStart) r0.aStart),
              g.foldl (fun b x => max b x.aEnd) r0.aEnd) := by
  have h := lookup_unrolled_foldl movie records initState z
  rw [hg] at h
  show lookupA ((records.foldl (crunchStep movie) initState).unrolled) z = _
  rw [h, List.foldl_cons]
  show g.foldl spanStep (some (min 99999 r0.aStart, max 0 r0.aEnd)) = _
  rw [spanStep_foldl_some, foldl_min_comm (fun r => r.aStart) g 99999 r0.aStart,
    foldl_max_comm (fun r => r.aEnd) g 0 r0.aEnd]
  have h0 : (0 : Int) ≤ r0.aEnd := hnn r0 (by rw [hg]; exact List.mem_cons_self r0 g)
  have hE : r0.aEnd ≤ g.foldl (fun b x => max b x.aEnd) r0.aEnd :=
    le_foldl_max (fun r => r.aEnd) g r0.aEnd
  rw [max_eq_right (le_trans h0 hE)]

/-- Witness for C2 (amended): one matching record with span `[5, 15]`;
the stored pair is `(min 99999 5, 15) = (5, 15)`. -/
theorem c2_read_span_amended_witness :
    matchingFor [(⟨"m", 1, 0, 10, 5, 15, 0, 0⟩ : AlignmentRecord)] "m" ("m", 1)
        = (⟨"m", 1, 0, 10, 5, 15, 0, 0⟩ : AlignmentRecord) :: []
      ∧ (∀ x ∈ matchingFor [(⟨"m", 1, 0, 10, 5, 15, 0, 0⟩ : AlignmentRecord)]
          "m" ("m", 1), (0 : Int) ≤ x.aEnd)
      ∧ lookupA
          (crunch [(⟨"m", 1, 0, 10, 5, 15, 0, 0⟩ : AlignmentRecord)]
            "m").unrolled ("m", 1)
        = some (min 99999 (List.foldl (fun (a : Int) (x : AlignmentRecord) => min a x.aStart)
              (⟨"m", 1, 0, 10, 5, 15, 0, 0⟩ : AlignmentRecord).aStart ([] : List AlignmentRecord)),
            List.foldl (fun (b : Int) (x : AlignmentRecord) => max b x.aEnd)
              (⟨"m", 1, 0, 10, 5, 15, 0, 0⟩ : AlignmentRecord).aEnd ([] : List AlignmentRecord)) :=
  ⟨rfl, by decide,
    c2_read_span_amended _ "m" ("m", 1) _ [] rfl (by decide)⟩

/-! ### Claim C8: span start bounded by span end -/

/-- C8: whenever every processed record satisfies
`reference start ≤ reference end`, every `ZmwId` present in the
`unrolled` output has stored span `start ≤ end`. Since the statement
holds for an arbitrary record list, it holds after every prefix of the
stream, i.e. after every update. -/
theorem c8_span_start_le_end (records : List AlignmentRecord) (movie : String)
    (z : ZmwId) (a b : Int)
    (hle : ∀ r ∈ records, r.aStart ≤ r.aEnd)
    (hz : lookupA (crunch records movie).unrolled z = some (a, b)) :
    a ≤ b := by
  have h := lookup_unrolled_foldl movie records initState z
  have hcr : lookupA (crunch records movie).unrolled z
      = (matchingFor records movie z).foldl spanStep none := h
  cases hg : matchingFor records movie z with
  | nil =>
    rw [hg] at hcr
    rw [hcr] at hz
    exact absurd hz (by simp)
  | cons r0 g =>
    rw [hg, List.foldl_cons] at hcr
    have hcr2 : lookupA (crunch records movie).unrolled z
        = some (g.foldl (fun x r => min x r.aStart) (min 99999 r0.aStart),
                g.foldl (fun x r => max x r.aEnd) (max 0 r0.aEnd)) := by
      rw [hcr]
      exact spanStep_foldl_some g (min 99999 r0.aStart) (max 0 r0.aEnd)
    rw [hz] at hcr2
    have ha : a = g.foldl (fun x r => min x r.aStart) (min 99999 r0.aStart) := by
      have := (Option.some.injEq _ _).mp hcr2
      exact (Prod.mk.injEq _ _ _ _).mp this |>.1
    have hb : b = g.foldl (fun x r => max x r.aEnd) (max 0 r0.aEnd) := by
      have := (Option.some.injEq _ _).mp hcr2
      exact (Prod.mk.injEq _ _ _ _).mp this |>.2
    have h1 : a ≤ min 99999 r0.aStart := ha ▸ foldl_min_le (fun r => r.aStart) g _
    have h2 : max 0 r0.aEnd ≤ b := hb ▸ le_foldl_max (fun r => r.aEnd) g _
    have hr0 : r0 ∈ records := by
      apply List.mem_of_mem_filter (p := fun r =>
        decide (r.movieName = movie ∧ zmwOf r = z))
      show r0 ∈ matchingFor records movie z
      rw [hg]
      exact List.mem_cons_self r0 g
    have h3 : r0.aStart ≤ r0.aEnd := hle r0 hr0
    have h4 : min 99999 r0.aStart ≤ r0.aStart := min_le_right _ _
    have h5 : r0.aEnd ≤ max 0 r0.aEnd := le_max_right _ _
    omega

/-- Witness for C8: one record with span `[5, 15]`; the stored span is
`(5, 15)` and `5 ≤ 15`. -/
theorem c8_span_start_le_end_witness :
    (∀ r ∈ [(⟨"m", 1, 0, 10, 5, 15, 0, 0⟩ : AlignmentRecord)],
        r.aStart ≤ r.aEnd)
      ∧ lookupA
          (crunch [(⟨"m", 1, 0, 10, 5, 15, 0, 0⟩ : AlignmentRecord)]
            "m").unrolled ("m", 1) = some (5, 15)
      ∧ (5 : Int) ≤ 15 :=
  ⟨by decide, by decide,
    c8_span_start_le_end [(⟨"m", 1, 0, 10, 5, 15, 0, 0⟩ : AlignmentRecord)]
      "m" ("m", 1) 5 15 (by decide) (by decide)⟩

/-! ### Claim C9: longest subread per ZMW -/

theorem max_crunchStep_match (movie : String) (st : CrunchState)
    (r : AlignmentRecord) (hm : movie = r.movieName) :
    (crunchStep movie st r).max_subread
      = match lookupA st.max_subread (zmwOf r) with
        | none => upsert st.max_subread (zmwOf r) (sidOf r, subreadLength r)
        | some p =>
            if subreadLength r > p.2 then
              upsert st.max_subread (zmwOf r) (sidOf r, subreadLength r)
            else st.max_subread := by
  simp [crunchStep, hm]

theorem lookup_max_step_self (movie : String) (st : CrunchState)
    (r : AlignmentRecord) (hm : movie = r.movieName) :
    lookupA (crunchStep movie st r).max_subread (zmwOf r)
      = maxStep (lookupA st.max_subread (zmwOf r)) r := by
  rw [max_crunchStep_match movie st r hm]
  cases hlook : lookupA st.max_subread (zmwOf r) with
  | none => simp [maxStep, lookupA_upsert_self]
  | some p =>
    by_cases hgt : subreadLength r > p.2
    · simp [maxStep, hgt, lookupA_upsert_self]
    · simp [maxStep, hgt, hlook]

theorem lookup_max_step_ne (movie : String) (st : CrunchState)
    (r : AlignmentRecord) (hm : movie = r.movieName) (z : ZmwId)
    (hz : zmwOf r ≠ z) :
    lookupA (crunchStep movie st r).max_subread z
      = lookupA st.max_subread z := by
  rw [max_crunchStep_match movie st r hm]
  cases hlook : lookupA st.max_subread (zmwOf r) with
  | none => exact lookupA_upsert_ne _ _ _ _ (fun h => hz h.symm)
  | some p =>
    by_cases hgt : subreadLength r > p.2
    · simp only [hgt, if_true]
      exact lookupA_upsert_ne _ _ _ _ (fun h => hz h.symm)
    · simp [hgt]

theorem lookup_max_foldl (movie : String) :
    ∀ (records : List AlignmentRecord) (st : CrunchState) (z : ZmwId),
      lookupA ((records.foldl (crunchStep movie) st).max_subread) z
        = (matchingFor records movie z).foldl maxStep
            (lookupA st.max_subread z) := by
  intro records
  induction records with
  | nil => intro st z; rfl
  | cons r rest ih =>
    intro st z
    rw [List.foldl_cons, ih]
    by_cases hm : movie = r.movieName
    · by_cases hz : zmwOf r = z
      · have hf : matchingFor (r :: rest) movie z
            = r :: matchingFor rest movie z := by
          simp [matchingFor, List.filter_cons, hm.symm, hz]
        rw [hf, List.foldl_cons]
        congr 1
        rw [← hz, lookup_max_step_self movie st r hm]
      · have hpred : ¬(r.movieName = movie ∧ zmwOf r = z) := fun h => hz h.2
        have hf : matchingFor (r :: rest) movie z
            = matchingFor rest movie z := by
          simp [matchingFor, List.filter_cons, hpred]
        rw [hf]
        congr 1
        exact lookup_max_step_ne movie st r hm z hz
    · have hpred : ¬(r.movieName = movie ∧ zmwOf r = z) := fun h => hm h.1.symm
      have hf : matchingFor (r :: rest) movie z
          = matchingFor rest movie z := by
        simp [matchingFor, List.filter_cons, hpred]
      rw [hf]
      congr 1
      rw [crunchStep_skip movie st r hm]

theorem firstMax_cons2 (a b : SubreadId × Int) (l : List (SubreadId × Int)) :
    firstMax (a :: b :: l) = firstMax ((if b.2 > a.2 then b else a) :: l) := by
  by_cases hba : b.2 > a.2
  · rw [if_pos hba]
    cases hl : firstMax l with
    | none => simp [firstMax, hl, hba]
    | some c =>
      by_cases hcb : c.2 > b.2
      · have hca : c.2 > a.2 := lt_trans hba hcb
        simp [firstMax, hl, hcb, hca]
      · simp [firstMax, hl, hcb, hba]
  · rw [if_neg hba]
    cases hl : firstMax l with
    | none => simp [firstMax, hl, hba]
    | some c =>
      by_cases hcb : c.2 > b.2
      · simp [firstMax, hl, hcb]
      · have hca : ¬(c.2 > a.2) := by omega
        simp [firstMax, hl, hcb, hba, hca]

theorem foldl_maxStep_some :
    ∀ (g : List AlignmentRecord) (q : SubreadId × Int),
      g.foldl maxStep (some q)
        = firstMax (q :: g.map (fun r => (sidOf r, subreadLength r))) := by
  intro g
  induction g with
  | nil => intro q; rfl
  | cons r t ih =>
    intro q
    rw [List.foldl_cons]
    by_cases h : subreadLength r > q.2
    · have hstep : maxStep (some q) r = some (sidOf r, subreadLength r) := by
        simp [maxStep, h]
      rw [hstep, ih, List.map_cons, firstMax_cons2]
      congr 1
      rw [if_pos h]
    · have hstep : maxStep (some q) r = some q := by
        simp [maxStep, h]
      rw [hstep, ih, List.map_cons, firstMax_cons2]
      congr 1
      rw [if_neg h]

theorem foldl_maxStep_none (g : List AlignmentRecord) :
    g.foldl maxStep none
      = firstMax (g.map (fun r => (sidOf r, subreadLength r))) := by
  cases g with
  | nil => rfl
  | cons r t =>
    rw [List.foldl_cons]
    show t.foldl maxStep (some (sidOf r, subreadLength r)) = _
    rw [foldl_maxStep_some, List.map_cons]

/-- C9: for every `ZmwId`, the stored entry of `max_subread` is exactly
the `(SubreadId, length)` pair of the matching record with the greatest
subread length, the first-seen one in stream order on ties (strict `>`
comparison). -/
theorem c9_longest_subread (records : List AlignmentRecord) (movie : String)
    (z : ZmwId) :
    lookupA (crunch records movie).max_subread z
      = firstMax ((matchingFor records movie z).map
          (fun r => (sidOf r, subreadLength r))) := by
  have h := lookup_max_foldl movie records initState z
  show lookupA ((records.foldl (crunchStep movie) initState).max_subread) z = _
  rw [h]
  exact foldl_maxStep_none _

/-! ### Claim C4: the isFirst flag -/

theorem datum_crunchStep_match (movie : String) (st : CrunchState)
    (r : AlignmentRecord) (hm : movie = r.movieName) :
    (crunchStep movie st r).datum
      = upsert st.datum (sidOf r) (rowOf st.last_zmw_id r) := by
  simp [crunchStep, hm]

theorem trace_crunchStep_match (movie : String) (st : CrunchState)
    (r : AlignmentRecord) (hm : movie = r.movieName) :
    (crunchStep movie st r).trace
      = st.trace ++ [(sidOf r, rowOf st.last_zmw_id r)] := by
  simp [crunchStep, hm]

theorem last_crunchStep_match (movie : String) (st : CrunchState)
    (r : AlignmentRecord) (hm : movie = r.movieName) :
    (crunchStep movie st r).last_zmw_id = some (zmwOf r) := by
  simp [crunchStep, hm]

theorem warn_crunchStep_match (movie : String) (st : CrunchState)
    (r : AlignmentRecord) (hm : movie = r.movieName) :
    (crunchStep movie st r).dup_warnings
      = st.dup_warnings
          + (if (lookupA st.datum (sidOf r)).isSome then 1 else 0) := by
  simp [crunchStep, hm]

theorem trace_last_foldl (movie : String) :
    ∀ (records : List AlignmentRecord) (st : CrunchState),
      (records.foldl (crunchStep movie) st).trace
          = st.trace ++ mkTrace st.last_zmw_id (msOf records movie)
        ∧ (records.foldl (crunchStep movie) st).last_zmw_id
          = (msOf records movie).foldl (fun _ r => some (zmwOf r))
              st.last_zmw_id := by
  intro records
  induction records with
  | nil => intro st; simp [msOf, mkTrace]
  | cons r rest ih =>
    intro st
    rw [List.foldl_cons]
    by_cases hm : movie = r.movieName
    · have hf : msOf (r :: rest) movie = r :: msOf rest movie := by
        simp [msOf, List.filter_cons, hm.symm]
      rcases ih (crunchStep movie st r) with ⟨ihT, ihL⟩
      constructor
      · rw [ihT, trace_crunchStep_match movie st r hm,
          last_crunchStep_match movie st r hm, hf]
        rw [List.append_assoc]
        rfl
      · rw [ihL, last_crunchStep_match movie st r hm, hf, List.foldl_cons]
    · have hf : msOf (r :: rest) movie = msOf rest movie := by
        have hpred : ¬(r.movieName = movie) := fun h => hm h.symm
        simp [msOf, List.filter_cons, hpred]
      rw [crunchStep_skip movie st r hm, hf]
      exact ih _

theorem mkTrace_flag_zero (ms : List AlignmentRecord) (lz : Option ZmwId)
    (h : ms ≠ []) :
    ((mkTrace lz ms).getD 0 ((("", 0, 0, 0) : SubreadId), ([] : List ℚ))).2.getD 3 0
      = if lz = some (zmwOf (ms.getD 0 (⟨"", 0, 0, 0, 0, 0, 0, 0⟩ : AlignmentRecord)))
        then (0 : ℚ) else 1 := by
  cases ms with
  | nil => exact absurd rfl h
  | cons r rs => simp [mkTrace, rowOf, List.getD]

theorem mkTrace_flag_succ :
    ∀ (ms : List AlignmentRecord) (lz : Option ZmwId) (i : Nat),
      i + 1 < ms.length →
      ((mkTrace lz ms).getD (i + 1)
          ((("", 0, 0, 0) : SubreadId), ([] : List ℚ))).2.getD 3 0
        = if zmwOf (ms.getD (i + 1) (⟨"", 0, 0, 0, 0, 0, 0, 0⟩ : AlignmentRecord))
              = zmwOf (ms.getD i (⟨"", 0, 0, 0, 0, 0, 0, 0⟩ : AlignmentRecord))
          then (0 : ℚ) else 1 := by
  intro ms
  induction ms with
  | nil => intro lz i h; simp at h
  | cons r rs ih =>
    intro lz i h
    cases i with
    | zero =>
      have hrs : rs ≠ [] := by
        intro hnil
        rw [hnil] at h
        simp at h
      show ((mkTrace (some (zmwOf r)) rs).getD 0 _).2.getD 3 0 = _
      rw [mkTrace_flag_zero rs (some (zmwOf r)) hrs]
      have hget1 : (r :: rs).getD 1 (⟨"", 0, 0, 0, 0, 0, 0, 0⟩ : AlignmentRecord)
          = rs.getD 0 (⟨"", 0, 0, 0, 0, 0, 0, 0⟩ : AlignmentRecord) := rfl
      have hget0 : (r :: rs).getD 0 (⟨"", 0, 0, 0, 0, 0, 0, 0⟩ : AlignmentRecord)
          = r := rfl
      rw [hget1, hget0]
      simp [eq_comm]
    | succ j =>
      have hj : j + 1 < rs.length := by
        simp only [List.length_cons] at h
        omega
      show ((mkTrace (some (zmwOf r)) rs).getD (j + 1) _).2.getD 3 0 = _
      rw [ih (some (zmwOf r)) j hj]
      rfl

/-- C4: for every input stream, the `isFirst` field of the `i`-th stored
subread row is `1.0` exactly when the `i`-th matching record's `ZmwId`
differs from the `ZmwId` of the immediately preceding matching record
(the very first matching record always gets `1.0`); records of other
movies neither reset nor advance this state, since the indices run over
the matching sublist only. -/
theorem c4_isFirst (records : List AlignmentRecord) (movie : String) (i : Nat)
    (hi : i < (msOf records movie).length) :
    ((crunch records movie).trace.getD i
        ((("", 0, 0, 0) : SubreadId), ([] : List ℚ))).2.getD 3 0
      = if i = 0
          ∨ zmwOf ((msOf records movie).getD i
              (⟨"", 0, 0, 0, 0, 0, 0, 0⟩ : AlignmentRecord))
            ≠ zmwOf ((msOf records movie).getD (i - 1)
              (⟨"", 0, 0, 0, 0, 0, 0, 0⟩ : AlignmentRecord))
        then (1 : ℚ) else 0 := by
  have htr : (crunch records movie).trace = mkTrace none (msOf records movie) := by
    have h := (trace_last_foldl movie records initState).1
    simpa [initState] using h
  rw [htr]
  cases i with
  | zero =>
    have hne : msOf records movie ≠ [] := by
      intro hnil
      rw [hnil] at hi
      simp at hi
    rw [mkTrace_flag_zero _ none hne]
    simp
  | succ j =>
    rw [mkTrace_flag_succ (msOf records movie) none j hi]
    have hj0 : ¬(j + 1 = 0) := by omega
    have hj1 : j + 1 - 1 = j := by omega
    rw [hj1]
    by_cases he : zmwOf ((msOf records movie).getD (j + 1)
          (⟨"", 0, 0, 0, 0, 0, 0, 0⟩ : AlignmentRecord))
        = zmwOf ((msOf records movie).getD j
          (⟨"", 0, 0, 0, 0, 0, 0, 0⟩ : AlignmentRecord))
    · simp [he, hj0]
    · simp [he, hj0]

/-- Witness for C4: a three-record matching stream with `ZmwId`
sequence `[A, A, B]`; the second stored row's `isFirst` is `0.0`
because its `ZmwId` equals the preceding matching record's. -/
theorem c4_isFirst_witness :
    1 < (msOf [(⟨"m", 1, 0, 5, 0, 5, 0, 0⟩ : AlignmentRecord),
        (⟨"m", 1, 2, 7, 10, 15, 0, 0⟩ : AlignmentRecord),
        (⟨"m", 2, 0, 5, 0, 5, 0, 0⟩ : AlignmentRecord)] "m").length
      ∧ ((crunch [(⟨"m", 1, 0, 5, 0, 5, 0, 0⟩ : AlignmentRecord),
            (⟨"m", 1, 2, 7, 10, 15, 0, 0⟩ : AlignmentRecord),
            (⟨"m", 2, 0, 5, 0, 5, 0, 0⟩ : AlignmentRecord)] "m").trace.getD 1
            ((("", 0, 0, 0) : SubreadId), ([] : List ℚ))).2.getD 3 0
        = if (1 : Nat) = 0
            ∨ zmwOf ((msOf [(⟨"m", 1, 0, 5, 0, 5, 0, 0⟩ : AlignmentRecord),
                (⟨"m", 1, 2, 7, 10, 15, 0, 0⟩ : AlignmentRecord),
                (⟨"m", 2, 0, 5, 0, 5, 0, 0⟩ : AlignmentRecord)] "m").getD 1
                (⟨"", 0, 0, 0, 0, 0, 0, 0⟩ : AlignmentRecord))
              ≠ zmwOf ((msOf [(⟨"m", 1, 0, 5, 0, 5, 0, 0⟩ : AlignmentRecord),
                (⟨"m", 1, 2, 7, 10, 15, 0, 0⟩ : AlignmentRecord),
                (⟨"m", 2, 0, 5, 0, 5, 0, 0⟩ : AlignmentRecord)] "m").getD 0
                (⟨"", 0, 0, 0, 0, 0, 0, 0⟩ : AlignmentRecord))
          then (1 : ℚ) else 0 :=
  ⟨by decide,
    c4_isFirst [(⟨"m", 1, 0, 5, 0, 5, 0, 0⟩ : AlignmentRecord),
      (⟨"m", 1, 2, 7, 10, 15, 0, 0⟩ : AlignmentRecord),
      (⟨"m", 2, 0, 5, 0, 5, 0, 0⟩ : AlignmentRecord)] "m" 1 (by decide)⟩

/-! ### Claim C5: duplicate SubreadId -/

theorem overwriteCount_append :
    ∀ (t : List (SubreadId × List ℚ)) (seen : List SubreadId)
      (p : SubreadId × List ℚ),
      overwriteCount seen (t ++ [p])
        = overwriteCount seen t
            + (if p.1 ∈ seen ∨ p.1 ∈ t.map Prod.fst then 1 else 0) := by
  intro t
  induction t with
  | nil =>
    intro seen p
    simp [overwriteCount]
  | cons q rest ih =>
    intro seen p
    show (if q.1 ∈ seen then 1 else 0) + overwriteCount (q.1 :: seen) (rest ++ [p])
      = (if q.1 ∈ seen then 1 else 0) + overwriteCount (q.1 :: seen) rest
          + (if p.1 ∈ seen ∨ p.1 ∈ (q :: rest).map Prod.fst then 1 else 0)
    rw [ih]
    have hiff : (p.1 ∈ q.1 :: seen ∨ p.1 ∈ rest.map Prod.fst)
        ↔ (p.1 ∈ seen ∨ p.1 ∈ (q :: rest).map Prod.fst) := by
      simp [List.mem_cons]
      tauto
    rw [if_congr hiff rfl rfl, Nat.add_assoc]

/-- Invariant transport for the `datum` map: its lookups agree with the
last write recorded in the trace. -/
theorem datum_lastwrite_foldl (movie : String) :
    ∀ (records : List AlignmentRecord) (st : CrunchState),
      (∀ k, lookupA st.datum k
          = ((st.trace.filter (fun p => decide (p.1 = k))).getLast?).map Prod.snd) →
      ∀ sid, lookupA (records.foldl (crunchStep movie) st).datum sid
          = (((records.foldl (crunchStep movie) st).trace.filter
              (fun p => decide (p.1 = sid))).getLast?).map Prod.snd := by
  intro records
  induction records with
  | nil => intro st h sid; exact h sid
  | cons r rest ih =>
    intro st h sid
    rw [List.foldl_cons]
    by_cases hm : movie = r.movieName
    · apply ih
      intro k
      rw [datum_crunchStep_match movie st r hm,
        trace_crunchStep_match movie st r hm, List.filter_append]
      by_cases hk : k = sidOf r
      · rw [hk, lookupA_upsert_self]
        have hfil : List.filter (fun p => decide (p.1 = sidOf r))
            [(sidOf r, rowOf st.last_zmw_id r)]
            = [(sidOf r, rowOf st.last_zmw_id r)] := by
          simp
        rw [hfil, List.getLast?_concat]
        rfl
      · rw [lookupA_upsert_ne _ _ _ _ hk]
        have hne : ¬(sidOf r = k) := fun hc => hk hc.symm
        have hfil2 : List.filter (fun p => decide (p.1 = k))
            [(sidOf r, rowOf st.last_zmw_id r)] = [] := by
          simp [hne]
        rw [hfil2, List.append_nil]
        exact h k
    · rw [crunchStep_skip movie st r hm]
      apply ih
      intro k
      exact h k

/-- Invariant transport for `dup_warnings`: it counts exactly the
overwrites recorded in the trace. -/
theorem warnings_foldl (movie : String) :
    ∀ (records : List AlignmentRecord) (st : CrunchState),
      st.dup_warnings = overwriteCount [] st.trace →
      (∀ k, (lookupA st.datum k).isSome = true ↔ k ∈ st.trace.map Prod.fst) →
      (records.foldl (crunchStep movie) st).dup_warnings
          = overwriteCount [] (records.foldl (crunchStep movie) st).trace
        ∧ (∀ k, (lookupA (records.foldl (crunchStep movie) st).datum k).isSome = true
            ↔ k ∈ (records.foldl (crunchStep movie) st).trace.map Prod.fst) := by
  intro records
  induction records with
  | nil => intro st h1 h2; exact ⟨h1, h2⟩
  | cons r rest ih =>
    intro st h1 h2
    rw [List.foldl_cons]
    by_cases hm : movie = r.movieName
    · apply ih
      · rw [warn_crunchStep_match movie st r hm,
          trace_crunchStep_match movie st r hm, overwriteCount_append, h1]
        have hiff : ((lookupA st.datum (sidOf r)).isSome = true)
            ↔ (sidOf r ∈ ([] : List SubreadId)
                ∨ sidOf r ∈ st.trace.map Prod.fst) := by
          rw [h2 (sidOf r)]
          simp
        rw [if_congr hiff rfl rfl]
      · intro k
        rw [datum_crunchStep_match movie st r hm,
          trace_crunchStep_match movie st r hm, lookupA_upsert_isSome,
          List.map_append, List.mem_append, h2 k]
        simp [or_comm]
    · rw [crunchStep_skip movie st r hm]
      apply ih
      · exact h1
      · intro k
        exact h2 k

/-- C5: duplicate `SubreadId`s are non-fatal. The stored row for any
`SubreadId` is the one of the last write in stream order (latest write
wins); `warnings.warn` fires exactly once per overwriting write; and
for two matching records with the same `SubreadId` and lengths 100 then
150, the stored row has length 150 and exactly one warning fired. -/
theorem c5_duplicate_subread :
    (∀ (records : List AlignmentRecord) (movie : String) (sid : SubreadId),
      lookupA (crunch records movie).datum sid
        = (((crunch records movie).trace.filter
            (fun p => decide (p.1 = sid))).getLast?).map Prod.snd)
    ∧ (∀ (records : List AlignmentRecord) (movie : String),
      (crunch records movie).dup_warnings
        = overwriteCount [] (crunch records movie).trace)
    ∧ (∀ (r1 r2 : AlignmentRecord) (movie : String),
      r1.movieName = movie → r2.movieName = movie → sidOf r1 = sidOf r2 →
      subreadLength r1 = 100 → subreadLength r2 = 150 →
      ((lookupA (crunch [r1, r2] movie).datum (sidOf r2)).getD []).getD 0 0
          = (150 : ℚ)
        ∧ (crunch [r1, r2] movie).dup_warnings = 1) := by
  refine ⟨?_, ?_, ?_⟩
  · intro records movie sid
    exact datum_lastwrite_foldl movie records initState (by intro k; rfl) sid
  · intro records movie
    exact (warnings_foldl movie records initState rfl (by intro k; simp [initState, lookupA_nil])).1
  · intro r1 r2 movie h1 h2 hsid hl1 hl2
    have hm1 : movie = r1.movieName := h1.symm
    have hm2 : movie = r2.movieName := h2.symm
    have hcr : crunch [r1, r2] movie
        = crunchStep movie (crunchStep movie initState r1) r2 := rfl
    have hlook2 : lookupA (crunchStep movie initState r1).datum (sidOf r2)
        = some (rowOf none r1) := by
      rw [datum_crunchStep_match movie initState r1 hm1, ← hsid,
        lookupA_upsert_self]
      rfl
    constructor
    · rw [hcr, datum_crunchStep_match movie _ r2 hm2, lookupA_upsert_self]
      show (rowOf (crunchStep movie initState r1).last_zmw_id r2).getD 0 0 = _
      show ((subreadLength r2 : Int) : ℚ) = (150 : ℚ)
      rw [hl2]
      norm_num
    · rw [hcr, warn_crunchStep_match movie _ r2 hm2,
        warn_crunchStep_match movie initState r1 hm1, hlook2]
      simp [initState, lookupA_nil]

/-- Witness for C5: two matching records sharing a `SubreadId`, with
lengths 100 then 150. -/
theorem c5_duplicate_subread_witness :
    ((⟨"m", 1, 0, 10, 0, 100, 0, 0⟩ : AlignmentRecord).movieName = "m"
        ∧ (⟨"m", 1, 0, 10, 50, 200, 0, 0⟩ : AlignmentRecord).movieName = "m"
        ∧ sidOf (⟨"m", 1, 0, 10, 0, 100, 0, 0⟩ : AlignmentRecord)
            = sidOf (⟨"m", 1, 0, 10, 50, 200, 0, 0⟩ : AlignmentRecord)
        ∧ subreadLength (⟨"m", 1, 0, 10, 0, 100, 0, 0⟩ : AlignmentRecord) = 100
        ∧ subreadLength (⟨"m", 1, 0, 10, 50, 200, 0, 0⟩ : AlignmentRecord) = 150)
      ∧ ((lookupA (crunch [(⟨"m", 1, 0, 10, 0, 100, 0, 0⟩ : AlignmentRecord),
            (⟨"m", 1, 0, 10, 50, 200, 0, 0⟩ : AlignmentRecord)] "m").datum
            (sidOf (⟨"m", 1, 0, 10, 50, 200, 0, 0⟩ : AlignmentRecord))).getD
              []).getD 0 0 = (150 : ℚ)
        ∧ (crunch [(⟨"m", 1, 0, 10, 0, 100, 0, 0⟩ : AlignmentRecord),
            (⟨"m", 1, 0, 10, 50, 200, 0, 0⟩ : AlignmentRecord)] "m").dup_warnings
            = 1 :=
  ⟨⟨rfl, rfl, rfl, rfl, rfl⟩,
    c5_duplicate_subread.2.2 (⟨"m", 1, 0, 10, 0, 100, 0, 0⟩ : AlignmentRecord)
      (⟨"m", 1, 0, 10, 50, 200, 0, 0⟩ : AlignmentRecord) "m" rfl rfl rfl rfl rfl⟩

/-! ### Claim C7: table invariants -/

theorem numpifyLoop_cons (reads : List (ZmwId × (Int × Int)))
    (subreads : List (SubreadId × List ℚ)) (n : String) (rest : List String)
    (r s : Nat) :
    (numpifyLoop reads subreads (n :: rest) r s).1
      = ⟨n, r, rCount reads n, s, sCount subreads n⟩
          :: (numpifyLoop reads subreads rest
              (r + rCount reads n) (s + sCount subreads n)).1 := by
  simp [numpifyLoop, rCount, sCount]

theorem numpifyLoop_movies_map (reads : List (ZmwId × (Int × Int)))
    (subreads : List (SubreadId × List ℚ)) :
    ∀ (mnames : List String) (r s : Nat),
      ((numpifyLoop reads subreads mnames r s).1.map (fun m => m.rLen)
          = mnames.map (rCount reads))
        ∧ ((numpifyLoop reads subreads mnames r s).1.map (fun m => m.sLen)
          = mnames.map (sCount subreads)) := by
  intro mnames
  induction mnames with
  | nil => intro r s; exact ⟨rfl, rfl⟩
  | cons n rest ih =>
    intro r s
    rw [numpifyLoop_cons]
    constructor
    · rw [List.map_cons, (ih _ _).1, List.map_cons]
    · rw [List.map_cons, (ih _ _).2, List.map_cons]

theorem sum_indicator_zero (names : List String) (a : String) (h : a ∉ names) :
    (names.map (fun n => if a = n then (1 : Nat) else 0)).sum = 0 := by
  induction names with
  | nil => rfl
  | cons n ns ih =>
    have h1 : ¬(a = n) := fun hc => h (hc ▸ List.mem_cons_self n ns)
    have h2 : a ∉ ns := fun hc => h (List.mem_cons_of_mem n hc)
    simp [h1, ih h2]

theorem sum_indicator_one (names : List String) (a : String)
    (hnd : names.Nodup) (hm : a ∈ names) :
    (names.map (fun n => if a = n then (1 : Nat) else 0)).sum = 1 := by
  induction names with
  | nil => exact absurd hm (List.not_mem_nil a)
  | cons n ns ih =>
    rcases List.nodup_cons.mp hnd with ⟨hn, hns⟩
    by_cases ha : a = n
    · have h2 : a ∉ ns := ha ▸ hn
      simp [ha, sum_indicator_zero ns n (ha ▸ h2)]
    · have h2 : a ∈ ns := by
        rcases List.mem_cons.mp hm with h | h
        · exact absurd h ha
        · exact h
      simp [ha, ih hns h2]

theorem sum_map_add {γ : Type} (l : List γ) (f g : γ → Nat) :
    (l.map (fun x => f x + g x)).sum = (l.map f).sum + (l.map g).sum := by
  induction l with
  | nil => rfl
  | cons x t ih =>
    simp [ih]
    omega

theorem sum_filter_lengths {γ : Type} (key : γ → String) :
    ∀ (l : List γ) (names : List String), names.Nodup →
      (∀ x ∈ l, key x ∈ names) →
      (names.map (fun n => (l.filter (fun x => decide (key x = n))).length)).sum
        = l.length := by
  intro l
  induction l with
  | nil =>
    intro names _ _
    simp
  | cons x rest ih =>
    intro names hnd hcov
    have hlen : ∀ n : String,
        ((x :: rest).filter (fun y => decide (key y = n))).length
          = (if key x = n then 1 else 0)
              + (rest.filter (fun y => decide (key y = n))).length := by
      intro n
      rw [List.filter_cons]
      by_cases hx : key x = n
      · simp [hx]
        omega
      · simp [hx]
    have hmap : names.map (fun n => ((x :: rest).filter
          (fun y => decide (key y = n))).length)
        = names.map (fun n => (if key x = n then 1 else 0)
            + (rest.filter (fun y => decide (key y = n))).length) :=
      List.map_congr_left (fun n _ => hlen n)
    rw [hmap, sum_map_add, sum_indicator_one names (key x) hnd
      (hcov x (List.mem_cons_self x rest)),
      ih names hnd (fun y hy => hcov y (List.mem_cons_of_mem x hy))]
    simp [Nat.add_comm]

theorem numpifyLoop_offs (reads : List (ZmwId × (Int × Int)))
    (subreads : List (SubreadId × List ℚ)) :
    ∀ (mnames : List String) (r s : Nat) (i : Nat),
      i + 1 < mnames.length →
      ((numpifyLoop reads subreads mnames r s).1.getD (i + 1)
            ⟨"", 0, 0, 0, 0⟩).rOffs
          = ((numpifyLoop reads subreads mnames r s).1.getD i
              ⟨"", 0, 0, 0, 0⟩).rOffs
            + ((numpifyLoop reads subreads mnames r s).1.getD i
              ⟨"", 0, 0, 0, 0⟩).rLen
        ∧ ((numpifyLoop reads subreads mnames r s).1.getD (i + 1)
            ⟨"", 0, 0, 0, 0⟩).sOffs
          = ((numpifyLoop reads subreads mnames r s).1.getD i
              ⟨"", 0, 0, 0, 0⟩).sOffs
            + ((numpifyLoop reads subreads mnames r s).1.getD i
              ⟨"", 0, 0, 0, 0⟩).sLen := by
  intro mnames
  induction mnames with
  | nil => intro r s i h; simp at h
  | cons n rest ih =>
    intro r s i h
    rw [numpifyLoop_cons]
    cases i with
    | zero =>
      cases rest with
      | nil => simp at h
      | cons n2 rest2 =>
        rw [numpifyLoop_cons]
        exact ⟨rfl, rfl⟩
    | succ j =>
      have hj : j + 1 < rest.length := by
        simp only [List.length_cons] at h
        omega
      have := ih (r + rCount reads n) (s + sCount subreads n) j hj
      simpa [List.getD_cons_succ] using this

theorem numpifyLoop_offs_zero (reads : List (ZmwId × (Int × Int)))
    (subreads : List (SubreadId × List ℚ)) (mnames : List String) :
    ((numpifyLoop reads subreads mnames 0 0).1.getD 0 ⟨"", 0, 0, 0, 0⟩).rOffs = 0
      ∧ ((numpifyLoop reads subreads mnames 0 0).1.getD 0
          ⟨"", 0, 0, 0, 0⟩).sOffs = 0 := by
  cases mnames with
  | nil => exact ⟨rfl, rfl⟩
  | cons n rest =>
    rw [numpifyLoop_cons]
    exact ⟨rfl, rfl⟩

theorem numpify_ok_movies (mnames : List String)
    (reads : List (ZmwId × (Int × Int))) (subreads : List (SubreadId × List ℚ))
    (cols : List String) (t : CrunchedAlignments)
    (h : _numpify mnames reads subreads cols = Except.ok t) :
    t.movies = (numpifyLoop reads subreads mnames 0 0).1 := by
  simp only [_numpify] at h
  cases hsl : (numpifyLoop reads subreads mnames 0 0).2.2 with
  | nil =>
    rw [hsl] at h
    exact absurd h (by simp)
  | cons row rest =>
    rw [hsl] at h
    by_cases hw : row.length ≠ cols.length
    · simp [hw] at h
    · simp only [hw, if_false] at h
      have h2 := Except.ok.inj h
      rw [← h2]

/-- C7: for a table built from a movie-name collection that lists,
without duplicates, exactly the movies occurring in the keys of the
read-span and subread mappings (with distinct keys), the per-movie read
lengths sum to the number of distinct `ZmwId` keys and the subread
lengths to the number of distinct `SubreadId` keys, the first movie
starts at offset 0, and each later movie's offset is the previous
offset plus the previous length, so per-movie ranges are contiguous and
never interleave. -/
theorem c7_table_invariants (mnames : List String)
    (reads : List (ZmwId × (Int × Int))) (subreads : List (SubreadId × List ℚ))
    (cols : List String) (t : CrunchedAlignments)
    (hok : _numpify mnames reads subreads cols = Except.ok t)
    (hnd : mnames.Nodup)
    (hrk : (reads.map Prod.fst).Nodup)
    (hsk : (subreads.map Prod.fst).Nodup)
    (hrc : ∀ kv ∈ reads, kv.1.1 ∈ mnames)
    (hsc : ∀ kv ∈ subreads, kv.1.1 ∈ mnames)
    (hex : ∀ n ∈ mnames,
      (∃ kv ∈ reads, kv.1.1 = n) ∨ (∃ kv ∈ subreads, kv.1.1 = n)) :
    ((t.movies.map (fun m => m.rLen)).sum = reads.length
        ∧ (t.movies.map (fun m => m.sLen)).sum = subreads.length)
      ∧ ((t.movies.getD 0 ⟨"", 0, 0, 0, 0⟩).rOffs = 0
        ∧ (t.movies.getD 0 ⟨"", 0, 0, 0, 0⟩).sOffs = 0)
      ∧ (∀ i, i + 1 < t.movies.length →
          (t.movies.getD (i + 1) ⟨"", 0, 0, 0, 0⟩).rOffs
              = (t.movies.getD i ⟨"", 0, 0, 0, 0⟩).rOffs
                + (t.movies.getD i ⟨"", 0, 0, 0, 0⟩).rLen
            ∧ (t.movies.getD (i + 1) ⟨"", 0, 0, 0, 0⟩).sOffs
              = (t.movies.getD i ⟨"", 0, 0, 0, 0⟩).sOffs
                + (t.movies.getD i ⟨"", 0, 0, 0, 0⟩).sLen) := by
  have hmv := numpify_ok_movies mnames reads subreads cols t hok
  refine ⟨⟨?_, ?_⟩, ?_, ?_⟩
  · rw [hmv, (numpifyLoop_movies_map reads subreads mnames 0 0).1]
    exact sum_filter_lengths (fun kv => kv.1.1) reads mnames hnd hrc
  · rw [hmv, (numpifyLoop_movies_map reads subreads mnames 0 0).2]
    exact sum_filter_lengths (fun kv => kv.1.1) subreads mnames hnd hsc
  · rw [hmv]
    exact numpifyLoop_offs_zero reads subreads mnames
  · intro i hi
    rw [hmv] at hi ⊢
    have hlen : (numpifyLoop reads subreads mnames 0 0).1.length
        = mnames.length := by
      have := (numpifyLoop_movies_map reads subreads mnames 0 0).1
      have hl := congrArg List.length this
      simpa using hl
    exact numpifyLoop_offs reads subreads mnames 0 0 i (hlen ▸ hi)

/-- Witness for C7: a one-movie build with one read span and one
subread row; both sums equal 1. -/
theorem c7_table_invariants_witness :
    (_numpify ["m"] [(("m", 1), (0, 5))]
          [(("m", 1, 0, 5), [5, 0, 0, 1, 99999])] columns
        = Except.ok (⟨[⟨"m", 0, 1, 0, 1⟩], [5], [[5, 0, 0, 1, 99999]]⟩
            : CrunchedAlignments))
      ∧ (["m"] : List String).Nodup
      ∧ ([(("m", 1), ((0 : Int), (5 : Int)))].map Prod.fst).Nodup
      ∧ ([((("m", (1 : Int), (0 : Int), (5 : Int)) : SubreadId),
          ([5, 0, 0, 1, 99999] : List ℚ))].map Prod.fst).Nodup
      ∧ (∀ kv ∈ [(("m", 1), ((0 : Int), (5 : Int)))], kv.1.1 ∈ ["m"])
      ∧ (∀ kv ∈ [((("m", (1 : Int), (0 : Int), (5 : Int)) : SubreadId),
          ([5, 0, 0, 1, 99999] : List ℚ))], kv.1.1 ∈ ["m"])
      ∧ (∀ n ∈ ["m"],
          (∃ kv ∈ [(("m", 1), ((0 : Int), (5 : Int)))], kv.1.1 = n)
            ∨ (∃ kv ∈ [((("m", (1 : Int), (0 : Int), (5 : Int)) : SubreadId),
                ([5, 0, 0, 1, 99999] : List ℚ))], kv.1.1 = n))
      ∧ (((⟨[⟨"m", 0, 1, 0, 1⟩], [5], [[5, 0, 0, 1, 99999]]⟩
            : CrunchedAlignments).movies.map (fun m => m.rLen)).sum
            = [(("m", 1), ((0 : Int), (5 : Int)))].length
        ∧ ((⟨[⟨"m", 0, 1, 0, 1⟩], [5], [[5, 0, 0, 1, 99999]]⟩
            : CrunchedAlignments).movies.map (fun m => m.sLen)).sum
            = [((("m", (1 : Int), (0 : Int), (5 : Int)) : SubreadId),
              ([5, 0, 0, 1, 99999] : List ℚ))].length) :=
  ⟨rfl, by decide, by decide, by decide, by decide, by decide, by decide,
    (c7_table_invariants ["m"] [(("m", 1), (0, 5))]
      [(("m", 1, 0, 5), [5, 0, 0, 1, 99999])] columns
      (⟨[⟨"m", 0, 1, 0, 1⟩], [5], [[5, 0, 0, 1, 99999]]⟩ : CrunchedAlignments)
      rfl (by decide) (by decide) (by decide) (by decide) (by decide)
      (by decide)).1⟩

/-! ### Claim C10: fixed row width makes the schema branch unreachable -/

theorem movie_names_crunchStep (movie : String) (st : CrunchState)
    (r : AlignmentRecord) :
    (crunchStep movie st r).movie_names
      = insertS st.movie_names r.movieName := by
  by_cases hm : movie = r.movieName
  · simp [crunchStep, hm]
  · simp [crunchStep, hm]

/-- Invariant transport for the `datum` map in `crunch`: every stored
row has width 5, every stored key carries the target movie name, and a
non-empty `datum` forces the target movie into `movie_names`. -/
theorem crunch_datum_invariants (movie : String) :
    ∀ (records : List AlignmentRecord) (st : CrunchState),
      (∀ p ∈ st.datum, p.2.length = 5 ∧ p.1.1 = movie) →
      (st.datum ≠ [] → movie ∈ st.movie_names) →
      (∀ p ∈ (records.foldl (crunchStep movie) st).datum,
          p.2.length = 5 ∧ p.1.1 = movie)
        ∧ ((records.foldl (crunchStep movie) st).datum ≠ []
            → movie ∈ (records.foldl (crunchStep movie) st).movie_names) := by
  intro records
  induction records with
  | nil => intro st h1 h2; exact ⟨h1, h2⟩
  | cons r rest ih =>
    intro st h1 h2
    rw [List.foldl_cons]
    by_cases hm : movie = r.movieName
    · apply ih
      · intro p hp
        rw [datum_crunchStep_match movie st r hm] at hp
        rcases mem_upsert hp with hin | heq
        · exact h1 p hin
        · constructor
          · rw [heq]
            rfl
          · rw [heq]
            show (sidOf r).1 = movie
            rw [hm]
            rfl
      · intro _
        rw [movie_names_crunchStep movie st r, hm]
        exact mem_insertS_self _ _
    · rw [crunchStep_skip movie st r hm]
      apply ih
      · intro p hp
        exact h1 p hp
      · intro hne
        exact mem_insertS_mono r.movieName (h2 hne)

theorem numpifyLoop_sl_rows (reads : List (ZmwId × (Int × Int)))
    (subreads : List (SubreadId × List ℚ)) :
    ∀ (mnames : List String) (r s : Nat) (row : List ℚ),
      row ∈ (numpifyLoop reads subreads mnames r s).2.2 →
      ∃ p ∈ subreads, p.2 = row := by
  intro mnames
  induction mnames with
  | nil => intro r s row h; exact absurd h (List.not_mem_nil row)
  | cons n rest ih =>
    intro r s row h
    have hsl : (numpifyLoop reads subreads (n :: rest) r s).2.2
        = (subreads.filter (fun kv => decide (kv.1.1 = n))).map Prod.snd
            ++ (numpifyLoop reads subreads rest
                (r + rCount reads n) (s + sCount subreads n)).2.2 := by
      simp [numpifyLoop, rCount, sCount]
    rw [hsl] at h
    rcases List.mem_append.mp h with h | h
    · rcases List.mem_map.mp h with ⟨kv, hkv, heq⟩
      exact ⟨kv, List.mem_of_mem_filter hkv, heq⟩
    · exact ih _ _ row h

theorem numpifyLoop_sl_ne_nil (reads : List (ZmwId × (Int × Int)))
    (subreads : List (SubreadId × List ℚ)) :
    ∀ (mnames : List String) (r s : Nat) (n : String)
      (p : SubreadId × List ℚ),
      n ∈ mnames → p ∈ subreads → p.1.1 = n →
      (numpifyLoop reads subreads mnames r s).2.2 ≠ [] := by
  intro mnames
  induction mnames with
  | nil => intro r s n p hn; exact absurd hn (List.not_mem_nil n)
  | cons m rest ih =>
    intro r s n p hn hp hpn
    have hsl : (numpifyLoop reads subreads (m :: rest) r s).2.2
        = (subreads.filter (fun kv => decide (kv.1.1 = m))).map Prod.snd
            ++ (numpifyLoop reads subreads rest
                (r + rCount reads m) (s + sCount subreads m)).2.2 := by
      simp [numpifyLoop, rCount, sCount]
    rw [hsl]
    intro hcontra
    rcases List.append_eq_nil.mp hcontra with ⟨hleft, hright⟩
    rcases List.mem_cons.mp hn with hnm | hnr
    · have hmem : p ∈ subreads.filter (fun kv => decide (kv.1.1 = m)) :=
        List.mem_filter.mpr ⟨hp, by simp [hpn, hnm]⟩
      have : p.2 ∈ (subreads.filter
          (fun kv => decide (kv.1.1 = m))).map Prod.snd :=
        List.mem_map.mpr ⟨p, hmem, rfl⟩
      rw [hleft] at this
      exact absurd this (List.not_mem_nil _)
    · exact ih _ _ n p hnr hp hpn hright

/-- C10: every subread row produced by the crunching engine is a list
of exactly 5 fields, so when a table is built through
`from_alignment_file` (whose fixed column list has 5 names) and at
least one subread row exists, `_numpify` succeeds: neither the
schema-mismatch branch nor any other failure is reachable. -/
theorem c10_schema_branch_unreachable (records : List AlignmentRecord)
    (movie : String)
    (hne : (from_alignment_file movie records).2.2.1 ≠ []) :
    (∀ p ∈ (from_alignment_file movie records).2.2.1, p.2.length = 5)
      ∧ ∃ t, _numpify (from_alignment_file movie records).1
          (from_alignment_file movie records).2.1
          (from_alignment_file movie records).2.2.1
          (from_alignment_file movie records).2.2.2 = Except.ok t := by
  have hinv := crunch_datum_invariants movie records initState
    (by intro p hp; exact absurd hp (List.not_mem_nil p))
    (by intro h; exact absurd rfl h)
  have hd : (from_alignment_file movie records).2.2.1
      = (crunch records movie).datum := rfl
  constructor
  · intro p hp
    rw [hd] at hp
    exact (hinv.1 p hp).1
  · show ∃ t, _numpify (crunch records movie).movie_names
        (crunch records movie).unrolled (crunch records movie).datum columns
        = Except.ok t
    have hdne : (crunch records movie).datum ≠ [] := hd ▸ hne
    have hmov : movie ∈ (crunch records movie).movie_names := hinv.2 hdne
    obtain ⟨q, hq⟩ : ∃ q, q ∈ (crunch records movie).datum := by
      cases hda : (crunch records movie).datum with
      | nil => exact absurd hda hdne
      | cons q rest => exact ⟨q, hda ▸ List.mem_cons_self q rest⟩
    have hq1 : q.1.1 = movie := (hinv.1 q hq).2
    have hslne : (numpifyLoop (crunch records movie).unrolled
        (crunch records movie).datum
        (crunch records movie).movie_names 0 0).2.2 ≠ [] :=
      numpifyLoop_sl_ne_nil _ _ _ 0 0 movie q hmov hq hq1
    cases hsl : (numpifyLoop (crunch records movie).unrolled
        (crunch records movie).datum
        (crunch records movie).movie_names 0 0).2.2 with
    | nil => exact absurd hsl hslne
    | cons row rest =>
      have hrow : ∃ p ∈ (crunch records movie).datum, p.2 = row := by
        apply numpifyLoop_sl_rows _ _ _ 0 0 row
        rw [hsl]
        exact List.mem_cons_self row rest
      rcases hrow with ⟨p, hpmem, hprow⟩
      have hrow5 : row.length = 5 := by
        rw [← hprow]
        exact (hinv.1 p hpmem).1
      have hwid : ¬(row.length ≠ columns.length) := by
        rw [hrow5]
        decide
      refine ⟨⟨(numpifyLoop (crunch records movie).unrolled
          (crunch records movie).datum
          (crunch records movie).movie_names 0 0).1,
        (numpifyLoop (crunch records movie).unrolled
          (crunch records movie).datum
          (crunch records movie).movie_names 0 0).2.1, row :: rest⟩, ?_⟩
      simp only [_numpify]
      rw [hsl]
      simp [hwid]

/-- Witness for C10: one matching record; its single stored row has
width 5 and the build succeeds. -/
theorem c10_schema_branch_unreachable_witness :
    (from_alignment_file "m"
        [(⟨"m", 1, 0, 5, 0, 5, 0, 0⟩ : AlignmentRecord)]).2.2.1 ≠ []
      ∧ (∀ p ∈ (from_alignment_file "m"
          [(⟨"m", 1, 0, 5, 0, 5, 0, 0⟩ : AlignmentRecord)]).2.2.1,
          p.2.length = 5) :=
  ⟨by decide,
    (c10_schema_branch_unreachable
      [(⟨"m", 1, 0, 5, 0, 5, 0, 0⟩ : AlignmentRecord)] "m" (by decide)).1⟩

end Align
